import Mathlib

/-!
Shallow embedding of the `mg_saic` Home Assistant custom integration
(`custom_components/mg_saic/message_handler.py` and the message-handler part of
`custom_components/mg_saic/__init__.py`), together with theorems settling the
frozen specification claims.

Modelling conventions:
* A message (`MessageEntity` of the vendor SDK) is modelled by the fields the
  code reads: `messageId` (`str | int | None`, modelled as `Option Int`),
  `messageType`, `title`, `message_time` (a `datetime`, modelled as `Int` under
  its total order), `read_status` and `vin`.
* The handler state is the triple of mutable attributes set in
  `SAICMGMessageHandler.__init__`: `last_message_ts`, `last_message_id`,
  `first_call`.  `datetime.min` is modelled by the constant `datetimeMin`.
* External calls go through an `Api` oracle: `pages n` is the outcome of
  `client.get_alarm_list(page_num=n, page_size=1)` — `.error ()` models the
  call raising, `.ok []` models both a `None` message list and an empty
  `messages` field (the code treats the two identically), `.ok l` a page with
  messages `l`.  `hasCoordinator vin` models whether
  `hass.data[DOMAIN]["coordinators_by_vin"]` holds a coordinator for `vin`.
* Side effects on the outside world are recorded as an `Event` trace, in the
  order the Python code performs them: `readReq m` = `m` passed to
  `read_message`, `markRead id` = `client.read_message(id)` invoked,
  `refreshReq vin` = `coordinator.async_request_refresh()` invoked for the
  coordinator of `vin`, `delReq m` = `m` passed to `__delete_message`,
  `delCall id` = `client.delete_message(id)` invoked.  The failures of these
  calls are caught locally in the Python code and change no handler state, so
  their results need not be modelled.
* The `while True` pagination loop has no bound in the source, so it is
  embedded with explicit fuel; a result of `none` means the loop was still
  running when the fuel ran out (i.e. models non-termination), `some none`
  models the Python function returning `None` (its `except` branch), and
  `some (some l)` a normal return of the list `l`.
-/

namespace MgSaic

/-- A notification message, with the fields of the SDK's `MessageEntity` that
the integration reads. -/
structure Msg where
  messageId : Option Int
  messageType : String
  title : String
  message_time : Int
  read_status : String
  vin : String
deriving DecidableEq, Repr

/-- The mutable state of `SAICMGMessageHandler` (set up in `__init__`). -/
structure HState where
  last_message_ts : Int
  last_message_id : Option Int
  first_call : Bool
deriving DecidableEq, Repr

/-- Model of `datetime.min`; every real message timestamp is at least this. -/
def datetimeMin : Int := 0

/-- The state produced by `SAICMGMessageHandler.__init__`. -/
def initialState : HState := ⟨datetimeMin, none, true⟩

/-- The external world the handler talks to. -/
structure Api where
  pages : Nat → Except Unit (List Msg)
  hasCoordinator : String → Bool

/-- Recorded external side effects, in program order. -/
inductive Event where
  | readReq (m : Msg)
  | markRead (id : Int)
  | refreshReq (vin : String)
  | delReq (m : Msg)
  | delCall (id : Int)
deriving DecidableEq, Repr

/-- Python's `min(l, key=lambda m: m.message_time)` starting from a current
best: the first element with minimal key wins (a later candidate replaces the
best only when strictly smaller). -/
def minByTime (best : Msg) : List Msg → Msg
  | [] => best
  | m :: rest => minByTime (if m.message_time < best.message_time then m else best) rest

/-- Python's `max(l, key=lambda m: m.message_time)` starting from a current
best: the first element with maximal key wins (a later candidate replaces the
best only when strictly greater). -/
def maxByTime (best : Msg) : List Msg → Msg
  | [] => best
  | m :: rest => maxByTime (if best.message_time < m.message_time then m else best) rest

/-- `SAICMGMessageHandler.__get_oldest_message`: `None` on an empty list, else
`min` by `message_time`. -/
def getOldestMessage : List Msg → Option Msg
  | [] => none
  | m :: rest => some (minByTime m rest)

/-- `SAICMGMessageHandler.__get_latest_message`: `None` on an empty list, else
`max` by `message_time`. -/
def getLatestMessage : List Msg → Option Msg
  | [] => none
  | m :: rest => some (maxByTime m rest)

/-- The body of the `while True` loop of
`SAICMGMessageHandler.get_all_alarm_messages`, with fuel.  `idx` and
`all_messages` are the Python local variables (the `finally: idx = idx + 1`
only feeds the next iteration, so the recursion passes `idx + 1`).
`none` = fuel exhausted (models the loop not terminating),
`some none` = the Python `return None` from the `except` branch,
`some (some l)` = `return l`. -/
def getAllAlarmMessagesAux (pages : Nat → Except Unit (List Msg)) (lastTs : Int) :
    Nat → Nat → List Msg → Option (Option (List Msg))
  | 0, _, _ => none
  | fuel + 1, idx, allMessages =>
    match pages idx with
    | .error _ => some none
    | .ok page =>
      if page = [] then some (some allMessages)
      else
        let allMessages := allMessages ++ page
        match getOldestMessage allMessages with
        | some om =>
          if om.message_time < lastTs then some (some allMessages)
          else getAllAlarmMessagesAux pages lastTs fuel (idx + 1) allMessages
        | none => getAllAlarmMessagesAux pages lastTs fuel (idx + 1) allMessages

/-- `SAICMGMessageHandler.get_all_alarm_messages`: paginate from page 1 with an
empty accumulator. -/
def getAllAlarmMessages (pages : Nat → Except Unit (List Msg)) (lastTs : Int)
    (fuel : Nat) : Option (Option (List Msg)) :=
  getAllAlarmMessagesAux pages lastTs fuel 1 []

/-- Events produced by `SAICMGMessageHandler.read_message m`: `m` is passed in,
and `client.read_message` is invoked exactly when `m.messageId` is not `None`
(exceptions of the client call are caught inside `read_message`). -/
def readMessageEvents (m : Msg) : List Event :=
  Event.readReq m ::
    match m.messageId with
    | some id => [Event.markRead id]
    | none => []

/-- Events produced by `SAICMGMessageHandler.__delete_message m`: `m` is passed
in, and `client.delete_message` is invoked exactly when `m.messageId` is not
`None` (exceptions of the client call are caught inside `__delete_message`). -/
def deleteMessageEvents (m : Msg) : List Event :=
  Event.delReq m ::
    match m.messageId with
    | some id => [Event.delCall id]
    | none => []

/-- The guard of lines 39–43 of `check_for_new_messages`: the latest message is
"new" when its id differs from the stored one and its time is strictly later
than the stored watermark (the `latest_message is not None` part is the `some`
pattern at the use sites). -/
def latestIsNew (st : HState) (lm : Msg) : Prop :=
  lm.messageId ≠ st.last_message_id ∧ st.last_message_ts < lm.message_time

instance (st : HState) (lm : Msg) : Decidable (latestIsNew st lm) := by
  unfold latestIsNew; infer_instance

/-- Lines 44–45 of `check_for_new_messages`: the watermark attributes after the
conditional assignment guarded by `latestIsNew`. -/
def updatedState (st : HState) (latest : Option Msg) : HState :=
  match latest with
  | some lm =>
    if latestIsNew st lm then ⟨lm.message_time, lm.messageId, st.first_call⟩ else st
  | none => st

/-- Lines 46–67 of `check_for_new_messages`: inside the `latestIsNew` branch,
when this is not the first call and a coordinator is stored for the message's
VIN, `async_request_refresh` is invoked on it (its failure is caught there). -/
def refreshEventsOf (api : Api) (st : HState) (latest : Option Msg) : List Event :=
  match latest with
  | some lm =>
    if latestIsNew st lm then
      if st.first_call then []
      else if api.hasCoordinator lm.vin then [Event.refreshReq lm.vin] else []
    else []
  | none => []

/-- Lines 32–36 of `check_for_new_messages`: every fetched message whose
`read_status` is not `"read"` is passed to `read_message`, in list order. -/
def readEventsOf (allMessages : List Msg) : List Event :=
  ((allMessages.filter fun m => decide (m.read_status ≠ "read")).map
    readMessageEvents).flatten

/-- Lines 69–76 of `check_for_new_messages`: every fetched message of type
`"323"` whose id differs from `st1.last_message_id` (the watermark *after* the
update) is passed to `__delete_message`, in list order. -/
def deleteEventsOf (allMessages : List Msg) (st1 : HState) : List Event :=
  ((allMessages.filter fun m =>
      decide (m.messageType = "323" ∧ m.messageId ≠ st1.last_message_id)).map
    deleteMessageEvents).flatten

/-- The part of `check_for_new_messages` that runs once `get_all_alarm_messages`
has returned a list `allMessages`: mark unread messages as read, pick the
latest message, conditionally advance the watermark and request a coordinator
refresh, delete stale `"323"` messages, and clear `first_call` (line 78).
Total: every exception inside this region of the Python code is caught locally
(in `read_message`, `__delete_message` and around `async_request_refresh`) and
alters no handler state. -/
def processMessages (api : Api) (st : HState) (allMessages : List Msg) :
    HState × List Event :=
  let latest := getLatestMessage allMessages
  let st1 := updatedState st latest
  (⟨st1.last_message_ts, st1.last_message_id, false⟩,
    readEventsOf allMessages ++ refreshEventsOf api st latest ++
      deleteEventsOf allMessages st1)

/-- `SAICMGMessageHandler.check_for_new_messages`.  When the fetch returns
`None`, the list comprehension `[m for m in all_messages ...]` raises
`TypeError`, which the enclosing `try` catches and logs: the call returns
normally with every handler attribute unchanged and no external call made.
All other external failures are caught where they occur and are modelled
inside `processMessages`.  `none` = the pagination loop never returned. -/
def checkForNewMessages (api : Api) (st : HState) (fuel : Nat) :
    Option (HState × List Event) :=
  match getAllAlarmMessages api.pages st.last_message_ts fuel with
  | none => none
  | some none => some (st, [])
  | some (some allMessages) => some (processMessages api st allMessages)

/-! ### The message-handler setup block of `__init__.py` (`async_setup_entry`,
lines 70–83) -/

/-- One successful `async_setup_entry` call reaching the message-handler block:
if `hass.data[DOMAIN].get("message_handler", None)` is falsy (the slot is
empty), a `SAICMGMessageHandler` is created, one time-interval callback is
registered, and the cancel callback (identified here by `newId`) is recorded
in the slot by `setdefault`; otherwise nothing is created.  Returns the new
slot and the number of handlers created (equal to the number of time-interval
callbacks registered, since the two happen together). -/
def setupMessageHandler (slot : Option Nat) (newId : Nat) : Option Nat × Nat :=
  match slot with
  | none => (some newId, 1)
  | some h => (some h, 0)

/-- `n` successful `async_setup_entry` calls in sequence on the same Home
Assistant instance, starting from a fresh `hass.data` (empty slot); the `k`-th
call would record its cancel callback as `k`.  Returns the final slot and the
total number of handlers created. -/
def runSetups : Nat → Option Nat × Nat
  | 0 => (none, 0)
  | n + 1 =>
    let s := runSetups n
    let s' := setupMessageHandler s.1 (n + 1)
    (s'.1, s.2 + s'.2)

/-! ### An API serving a fixed newest-first message list -/

/-- An API that serves the fixed message list `L` one message per page (page
`n` holds the `n`-th message of `L`, pages beyond the end are empty) and never
raises.  This models the documented backend behavior assumed by the spec: the
alarm list is returned newest-first, `page_size=1`. -/
def apiOfList (L : List Msg) : Nat → Except Unit (List Msg) :=
  fun n => .ok ((L.drop (n - 1)).take 1)

/-- `L` is sorted newest-first by `message_time`. -/
def sortedDesc (L : List Msg) : Prop :=
  List.Pairwise (fun a b => b.message_time ≤ a.message_time) L

instance (L : List Msg) : Decidable (sortedDesc L) := by
  unfold sortedDesc; infer_instance

/-! ### Concrete scenarios used to evaluate the definitions -/

/-- A non-`"323"` message: id 5, time 10, already read, VIN `"V"`. -/
def mA : Msg := ⟨some 5, "999", "tA", 10, "read", "V"⟩

/-- A `"323"` (vehicle start) message: id 7, time 10, already read, VIN `"W"`. -/
def mB : Msg := ⟨some 7, "323", "tB", 10, "read", "W"⟩

/-- A `"323"` message: id 9, time 10, already read, VIN `"X"`. -/
def mCx : Msg := ⟨some 9, "323", "tC", 10, "read", "X"⟩

/-- Pages serving exactly one message `m` on page 1. -/
def singlePage (m : Msg) : Nat → Except Unit (List Msg) :=
  fun n => if n = 1 then .ok [m] else .ok []

/-- API with `mA` on page 1 and a coordinator for every VIN. -/
def apiA : Api := ⟨singlePage mA, fun _ => true⟩

/-- API with `mB` on page 1 and a coordinator for every VIN. -/
def apiB : Api := ⟨singlePage mB, fun _ => true⟩

/-- API with `mCx` on page 1 and no coordinator for any VIN. -/
def apiCx : Api := ⟨singlePage mCx, fun _ => false⟩

/-- Handler state past its first call, with watermark time 0 and no stored id. -/
def stRun : HState := ⟨0, none, false⟩

/-- Previously-seen message at exactly the watermark time 5. -/
def m1C2 : Msg := ⟨some 1, "323", "t1", 5, "read", "V"⟩

/-- Message strictly older than the watermark time 5. -/
def m2C2 : Msg := ⟨some 2, "323", "t2", 4, "read", "V"⟩

/-- Pages for the C2 counterexample: page 1 is `[m1C2]`, page 2 is `[m2C2]`,
later pages are empty. -/
def pagesC2 : Nat → Except Unit (List Msg) :=
  fun n => if n = 1 then .ok [m1C2] else if n = 2 then .ok [m2C2] else .ok []

/-- A message newer than watermark 0. -/
def mC3 : Msg := ⟨some 3, "323", "t3", 1, "read", "V"⟩

/-- An adversarial API that returns the non-empty page `[mC3]` for every page
number and never raises. -/
def pagesC3 : Nat → Except Unit (List Msg) :=
  fun _ => .ok [mC3]

/-- An old message (time 0), used against watermark 5. -/
def mC6 : Msg := ⟨some 6, "323", "t6", 0, "read", "V"⟩

/-- API with `mC6` on page 1 and a coordinator for every VIN. -/
def apiC6 : Api := ⟨singlePage mC6, fun _ => true⟩

/-- An API whose very first page fetch raises. -/
def apiErr : Api := ⟨fun _ => .error (), fun _ => true⟩

/-- An API with no messages at all: every page is empty. -/
def pagesEmpty : Nat → Except Unit (List Msg) :=
  fun _ => .ok []

/-- An unread message used for the mark-read scenarios: id 11, time 10,
unread, VIN `"V"`. -/
def mUnread : Msg := ⟨some 11, "323", "tU", 10, "unread", "V"⟩

/-- API with `mUnread` on page 1 and a coordinator for every VIN. -/
def apiUnread : Api := ⟨singlePage mUnread, fun _ => true⟩

/-- Sorted two-message list for the C2 witness: times 10 and 3. -/
def lC2W : List Msg := [⟨some 21, "323", "w1", 10, "read", "V"⟩,
  ⟨some 22, "323", "w2", 3, "read", "V"⟩]

/-! ## Helper lemmas about the min/max selections -/

theorem minByTime_mem (best : Msg) (l : List Msg) :
    minByTime best l = best ∨ minByTime best l ∈ l := by
  induction l generalizing best with
  | nil => exact Or.inl rfl
  | cons m rest ih =>
    simp only [minByTime]
    rcases ih (if m.message_time < best.message_time then m else best) with h | h
    · rw [h]
      split
      · exact Or.inr (List.mem_cons_self _ _)
      · exact Or.inl rfl
    · exact Or.inr (List.mem_cons_of_mem _ h)

theorem minByTime_le (best : Msg) (l : List Msg) :
    (minByTime best l).message_time ≤ best.message_time ∧
      ∀ a ∈ l, (minByTime best l).message_time ≤ a.message_time := by
  induction l generalizing best with
  | nil => exact ⟨le_refl _, fun a ha => absurd ha (List.not_mem_nil a)⟩
  | cons m rest ih =>
    simp only [minByTime]
    obtain ⟨h1, h2⟩ := ih (if m.message_time < best.message_time then m else best)
    refine ⟨le_trans h1 ?_, fun a ha => ?_⟩
    · split <;> omega
    · rcases List.mem_cons.mp ha with rfl | ha'
      · refine le_trans h1 ?_
        split <;> omega
      · exact h2 a ha'

theorem maxByTime_mem (best : Msg) (l : List Msg) :
    maxByTime best l = best ∨ maxByTime best l ∈ l := by
  induction l generalizing best with
  | nil => exact Or.inl rfl
  | cons m rest ih =>
    simp only [maxByTime]
    rcases ih (if best.message_time < m.message_time then m else best) with h | h
    · rw [h]
      split
      · exact Or.inr (List.mem_cons_self _ _)
      · exact Or.inl rfl
    · exact Or.inr (List.mem_cons_of_mem _ h)

theorem maxByTime_ge (best : Msg) (l : List Msg) :
    best.message_time ≤ (maxByTime best l).message_time ∧
      ∀ a ∈ l, a.message_time ≤ (maxByTime best l).message_time := by
  induction l generalizing best with
  | nil => exact ⟨le_refl _, fun a ha => absurd ha (List.not_mem_nil a)⟩
  | cons m rest ih =>
    simp only [maxByTime]
    obtain ⟨h1, h2⟩ := ih (if best.message_time < m.message_time then m else best)
    refine ⟨le_trans ?_ h1, fun a ha => ?_⟩
    · split <;> omega
    · rcases List.mem_cons.mp ha with rfl | ha'
      · refine le_trans ?_ h1
        split <;> omega
      · exact h2 a ha'

theorem getOldestMessage_spec (l : List Msg) (h : l ≠ []) :
    ∃ om, getOldestMessage l = some om ∧ om ∈ l ∧
      ∀ a ∈ l, om.message_time ≤ a.message_time := by
  match l with
  | [] => exact absurd rfl h
  | m :: rest =>
    refine ⟨minByTime m rest, rfl, ?_, ?_⟩
    · rcases minByTime_mem m rest with h' | h'
      · rw [h']; exact List.mem_cons_self _ _
      · exact List.mem_cons_of_mem _ h'
    · intro a ha
      obtain ⟨h1, h2⟩ := minByTime_le m rest
      rcases List.mem_cons.mp ha with rfl | ha'
      · exact h1
      · exact h2 a ha'

theorem getLatestMessage_spec (l : List Msg) (h : l ≠ []) :
    ∃ sel, getLatestMessage l = some sel ∧ sel ∈ l ∧
      ∀ a ∈ l, a.message_time ≤ sel.message_time := by
  match l with
  | [] => exact absurd rfl h
  | m :: rest =>
    refine ⟨maxByTime m rest, rfl, ?_, ?_⟩
    · rcases maxByTime_mem m rest with h' | h'
      · rw [h']; exact List.mem_cons_self _ _
      · exact List.mem_cons_of_mem _ h'
    · intro a ha
      obtain ⟨h1, h2⟩ := maxByTime_ge m rest
      rcases List.mem_cons.mp ha with rfl | ha'
      · exact h1
      · exact h2 a ha'

theorem getLatestMessage_eq_none (l : List Msg) :
    getLatestMessage l = none ↔ l = [] := by
  cases l <;> simp [getLatestMessage]

/-! ## Helper lemmas about event membership -/

theorem mem_readMessageEvents (e : Event) (m : Msg) :
    e ∈ readMessageEvents m ↔
      e = Event.readReq m ∨ ∃ id, m.messageId = some id ∧ e = Event.markRead id := by
  cases h : m.messageId <;> simp [readMessageEvents, h]

theorem mem_deleteMessageEvents (e : Event) (m : Msg) :
    e ∈ deleteMessageEvents m ↔
      e = Event.delReq m ∨ ∃ id, m.messageId = some id ∧ e = Event.delCall id := by
  cases h : m.messageId <;> simp [deleteMessageEvents, h]

theorem mem_readEventsOf (e : Event) (l : List Msg) :
    e ∈ readEventsOf l ↔
      ∃ m, m ∈ l ∧ m.read_status ≠ "read" ∧ e ∈ readMessageEvents m := by
  simp only [readEventsOf, List.mem_flatten, List.mem_map, List.mem_filter,
    decide_eq_true_eq, ne_eq]
  constructor
  · rintro ⟨s, ⟨m, ⟨hm, hr⟩, rfl⟩, he⟩
    exact ⟨m, hm, hr, he⟩
  · rintro ⟨m, hm, hr, he⟩
    exact ⟨readMessageEvents m, ⟨m, ⟨hm, hr⟩, rfl⟩, he⟩

theorem mem_deleteEventsOf (e : Event) (l : List Msg) (st1 : HState) :
    e ∈ deleteEventsOf l st1 ↔
      ∃ m, m ∈ l ∧ (m.messageType = "323" ∧ m.messageId ≠ st1.last_message_id) ∧
        e ∈ deleteMessageEvents m := by
  simp only [deleteEventsOf, List.mem_flatten, List.mem_map, List.mem_filter,
    decide_eq_true_eq, ne_eq]
  constructor
  · rintro ⟨s, ⟨m, ⟨hm, hr⟩, rfl⟩, he⟩
    exact ⟨m, hm, hr, he⟩
  · rintro ⟨m, hm, hr, he⟩
    exact ⟨deleteMessageEvents m, ⟨m, ⟨hm, hr⟩, rfl⟩, he⟩

theorem mem_refreshEventsOf (api : Api) (st : HState) (latest : Option Msg)
    (e : Event) :
    e ∈ refreshEventsOf api st latest ↔
      ∃ lm, latest = some lm ∧ latestIsNew st lm ∧ st.first_call = false ∧
        api.hasCoordinator lm.vin = true ∧ e = Event.refreshReq lm.vin := by
  cases latest with
  | none => simp [refreshEventsOf]
  | some lm =>
    by_cases hn : latestIsNew st lm
    · cases hfc : st.first_call
      · by_cases hc : api.hasCoordinator lm.vin
        · simp [refreshEventsOf, hn, hfc, hc]
        · simp [refreshEventsOf, hn, hfc, hc]
      · simp [refreshEventsOf, hn, hfc]
    · simp [refreshEventsOf, hn]

/-! ## Structural lemmas about a successful run -/

theorem processMessages_eq (api : Api) (st : HState) (msgs : List Msg) :
    processMessages api st msgs =
      (⟨(updatedState st (getLatestMessage msgs)).last_message_ts,
        (updatedState st (getLatestMessage msgs)).last_message_id, false⟩,
       readEventsOf msgs ++ refreshEventsOf api st (getLatestMessage msgs) ++
         deleteEventsOf msgs (updatedState st (getLatestMessage msgs))) := rfl

theorem checkForNewMessages_fetch_ok (api : Api) (st : HState) (fuel : Nat)
    (msgs : List Msg)
    (hmsgs : getAllAlarmMessages api.pages st.last_message_ts fuel
      = some (some msgs)) :
    checkForNewMessages api st fuel = some (processMessages api st msgs) := by
  unfold checkForNewMessages
  rw [hmsgs]

theorem updatedState_ts_cases (st : HState) (latest : Option Msg) :
    (updatedState st latest = st) ∨
      ∃ lm, latest = some lm ∧ latestIsNew st lm ∧
        updatedState st latest = ⟨lm.message_time, lm.messageId, st.first_call⟩ := by
  cases latest with
  | none => exact Or.inl rfl
  | some lm =>
    by_cases hn : latestIsNew st lm
    · exact Or.inr ⟨lm, rfl, hn, by simp [updatedState, if_pos hn]⟩
    · exact Or.inl (by simp [updatedState, if_neg hn])

/-- C4. The stored last-seen timestamp advances monotonically across any call
of `check_for_new_messages` that returns (the fetch may succeed or fail);
whenever the call changes it, it strictly increases, because the assignment on
line 45 is guarded by `latest_message.message_time > self.last_message_ts`. -/
theorem c4_watermark_monotone (api : Api) (st st' : HState) (fuel : Nat)
    (tr : List Event)
    (hrun : checkForNewMessages api st fuel = some (st', tr)) :
    st.last_message_ts ≤ st'.last_message_ts ∧
      (st'.last_message_ts ≠ st.last_message_ts →
        st.last_message_ts < st'.last_message_ts) := by
  unfold checkForNewMessages at hrun
  cases hget : getAllAlarmMessages api.pages st.last_message_ts fuel with
  | none => rw [hget] at hrun; exact absurd hrun (by simp)
  | some o =>
    rw [hget] at hrun
    cases o with
    | none =>
      simp only [Option.some.injEq, Prod.mk.injEq] at hrun
      obtain ⟨rfl, -⟩ := hrun
      exact ⟨le_refl _, fun h => absurd rfl h⟩
    | some msgs =>
      simp only [Option.some.injEq] at hrun
      have hst' : st' = (processMessages api st msgs).1 := by rw [hrun]
      rw [processMessages_eq] at hst'
      rcases updatedState_ts_cases st (getLatestMessage msgs) with h | ⟨lm, -, hn, h⟩
      · rw [hst', h]
        exact ⟨le_refl _, fun h => absurd rfl h⟩
      · rw [hst', h]
        exact ⟨le_of_lt hn.2, fun _ => hn.2⟩

/-- Witness for `c4_watermark_monotone`: the scenario `apiA`/`stRun` run with
fuel 3 returns, and the watermark advanced from 0 to 10. -/
theorem c4_watermark_monotone_witness :
    (0 : Int) ≤ (10 : Int) ∧ ((10 : Int) ≠ 0 → (0 : Int) < 10) :=
  c4_watermark_monotone apiA stRun ⟨10, some 5, false⟩ 3 [Event.refreshReq "V"]
    (by decide)

/-- C8. `check_for_new_messages` catches every exception: an API failure while
fetching pages (so `get_all_alarm_messages` returns `None`) makes the list
comprehension on line 32 raise, the outer `except` catches it, and the call
returns normally with the entire handler state — `last_message_id`,
`last_message_ts` and `first_call` — unchanged and no external call made.
The embedding of `check_for_new_messages` is a total function: no run
propagates an exception. -/
theorem c8_fetch_failure (api : Api) (st : HState) (fuel : Nat)
    (h : getAllAlarmMessages api.pages st.last_message_ts fuel = some none) :
    checkForNewMessages api st fuel = some (st, []) := by
  unfold checkForNewMessages
  rw [h]

/-- Witness for `c8_fetch_failure`: against `apiErr` (whose first page fetch
raises), the handler returns with its state untouched. -/
theorem c8_fetch_failure_witness :
    checkForNewMessages apiErr stRun 1 = some (stRun, []) :=
  c8_fetch_failure apiErr stRun 1 (by decide)

theorem run_destruct (api : Api) (st st' : HState) (fuel : Nat) (tr : List Event)
    (msgs : List Msg)
    (hrun : checkForNewMessages api st fuel = some (st', tr))
    (hmsgs : getAllAlarmMessages api.pages st.last_message_ts fuel
      = some (some msgs)) :
    st' = ⟨(updatedState st (getLatestMessage msgs)).last_message_ts,
      (updatedState st (getLatestMessage msgs)).last_message_id, false⟩ ∧
    tr = readEventsOf msgs ++ refreshEventsOf api st (getLatestMessage msgs) ++
      deleteEventsOf msgs (updatedState st (getLatestMessage msgs)) := by
  rw [checkForNewMessages_fetch_ok api st fuel msgs hmsgs] at hrun
  rw [processMessages_eq] at hrun
  simp only [Option.some.injEq, Prod.mk.injEq] at hrun
  exact ⟨hrun.1.symm, hrun.2.symm⟩

/-- C5. In a run whose fetch succeeded with list `msgs`, a message is passed to
`__delete_message` exactly when it is a fetched message of type `"323"` whose
id differs from the stored last-seen id after the watermark update (which is
`st'.last_message_id`).  In particular no message of another type is deleted,
and the message whose id equals the stored last-seen id is never deleted. -/
theorem c5_delete_iff (api : Api) (st st' : HState) (fuel : Nat) (tr : List Event)
    (msgs : List Msg)
    (hrun : checkForNewMessages api st fuel = some (st', tr))
    (hmsgs : getAllAlarmMessages api.pages st.last_message_ts fuel
      = some (some msgs)) :
    ∀ m, Event.delReq m ∈ tr ↔
      m ∈ msgs ∧ m.messageType = "323" ∧ m.messageId ≠ st'.last_message_id := by
  obtain ⟨h1, h2⟩ := run_destruct api st st' fuel tr msgs hrun hmsgs
  subst h1; subst h2
  intro m
  constructor
  · intro h
    rcases List.mem_append.mp h with h | h
    · rcases List.mem_append.mp h with h | h
      · rw [mem_readEventsOf] at h
        obtain ⟨m', -, -, hm⟩ := h
        rw [mem_readMessageEvents] at hm
        rcases hm with h' | ⟨id, -, h'⟩ <;> exact absurd h' (by simp)
      · rw [mem_refreshEventsOf] at h
        obtain ⟨lm, -, -, -, -, h'⟩ := h
        exact absurd h' (by simp)
    · rw [mem_deleteEventsOf] at h
      obtain ⟨m', hm', hcond, hm⟩ := h
      rw [mem_deleteMessageEvents] at hm
      rcases hm with h' | ⟨id, -, h'⟩
      · injection h' with h''
        subst h''
        exact ⟨hm', hcond.1, hcond.2⟩
      · exact absurd h' (by simp)
  · rintro ⟨hm, ht, hid⟩
    refine List.mem_append.mpr (Or.inr ?_)
    rw [mem_deleteEventsOf]
    refine ⟨m, hm, ⟨ht, hid⟩, ?_⟩
    rw [mem_deleteMessageEvents]
    exact Or.inl rfl

/-- Witness for `c5_delete_iff`: against `apiC6` with watermark 5, the stale
vehicle start message `mC6` is passed to `__delete_message`. -/
theorem c5_delete_iff_witness :
    Event.delReq mC6 ∈ [Event.delReq mC6, Event.delCall 6] ↔
      mC6 ∈ [mC6] ∧ mC6.messageType = "323" ∧
        mC6.messageId ≠ (⟨5, none, false⟩ : HState).last_message_id :=
  c5_delete_iff apiC6 ⟨5, none, false⟩ ⟨5, none, false⟩ 3
    [Event.delReq mC6, Event.delCall 6] [mC6] (by decide) (by decide) mC6

/-- C7. In a run whose fetch succeeded with list `msgs`: exactly the fetched
messages whose `read_status` is not `"read"` are passed to `read_message`;
each of them with a non-`None` id is marked read through
`client.read_message`; and all of this happens before any deletion — the
trace splits as `pre ++ post` with every read-marking event in `pre` and no
deletion event in `pre`.  (It also happens before the watermark comparison:
the mark-read events are computed from the fetched list alone, before
`updatedState` is consulted.) -/
theorem c7_mark_read (api : Api) (st st' : HState) (fuel : Nat) (tr : List Event)
    (msgs : List Msg)
    (hrun : checkForNewMessages api st fuel = some (st', tr))
    (hmsgs : getAllAlarmMessages api.pages st.last_message_ts fuel
      = some (some msgs)) :
    (∀ m, Event.readReq m ∈ tr ↔ m ∈ msgs ∧ m.read_status ≠ "read") ∧
    (∀ m id, m ∈ msgs → m.read_status ≠ "read" → m.messageId = some id →
      Event.markRead id ∈ tr) ∧
    (∃ pre post, tr = pre ++ post ∧
      (∀ m, Event.readReq m ∈ tr → Event.readReq m ∈ pre) ∧
      (∀ id, Event.markRead id ∈ tr → Event.markRead id ∈ pre) ∧
      (∀ m, Event.delReq m ∉ pre) ∧ (∀ id, Event.delCall id ∉ pre)) := by
  obtain ⟨h1, h2⟩ := run_destruct api st st' fuel tr msgs hrun hmsgs
  subst h1; subst h2
  refine ⟨?_, ?_, ?_⟩
  · intro m
    constructor
    · intro h
      rcases List.mem_append.mp h with h | h
      · rcases List.mem_append.mp h with h | h
        · rw [mem_readEventsOf] at h
          obtain ⟨m', hm', hr', hm⟩ := h
          rw [mem_readMessageEvents] at hm
          rcases hm with h' | ⟨id, -, h'⟩
          · injection h' with h''
            subst h''
            exact ⟨hm', hr'⟩
          · exact absurd h' (by simp)
        · rw [mem_refreshEventsOf] at h
          obtain ⟨lm, -, -, -, -, h'⟩ := h
          exact absurd h' (by simp)
      · rw [mem_deleteEventsOf] at h
        obtain ⟨m', -, -, hm⟩ := h
        rw [mem_deleteMessageEvents] at hm
        rcases hm with h' | ⟨id, -, h'⟩ <;> exact absurd h' (by simp)
    · rintro ⟨hm, hr⟩
      refine List.mem_append.mpr (Or.inl (List.mem_append.mpr (Or.inl ?_)))
      rw [mem_readEventsOf]
      refine ⟨m, hm, hr, ?_⟩
      rw [mem_readMessageEvents]
      exact Or.inl rfl
  · intro m id hm hr hid
    refine List.mem_append.mpr (Or.inl (List.mem_append.mpr (Or.inl ?_)))
    rw [mem_readEventsOf]
    refine ⟨m, hm, hr, ?_⟩
    rw [mem_readMessageEvents]
    exact Or.inr ⟨id, hid, rfl⟩
  · refine ⟨readEventsOf msgs,
      refreshEventsOf api st (getLatestMessage msgs) ++
        deleteEventsOf msgs (updatedState st (getLatestMessage msgs)),
      (List.append_assoc _ _ _), ?_, ?_, ?_, ?_⟩
    · intro m h
      rcases List.mem_append.mp h with h | h
      · rcases List.mem_append.mp h with h | h
        · exact h
        · rw [mem_refreshEventsOf] at h
          obtain ⟨lm, -, -, -, -, h'⟩ := h
          exact absurd h' (by simp)
      · rw [mem_deleteEventsOf] at h
        obtain ⟨m', -, -, hm⟩ := h
        rw [mem_deleteMessageEvents] at hm
        rcases hm with h' | ⟨id, -, h'⟩ <;> exact absurd h' (by simp)
    · intro id h
      rcases List.mem_append.mp h with h | h
      · rcases List.mem_append.mp h with h | h
        · exact h
        · rw [mem_refreshEventsOf] at h
          obtain ⟨lm, -, -, -, -, h'⟩ := h
          exact absurd h' (by simp)
      · rw [mem_deleteEventsOf] at h
        obtain ⟨m', -, -, hm⟩ := h
        rw [mem_deleteMessageEvents] at hm
        rcases hm with h' | ⟨id', -, h'⟩ <;> exact absurd h' (by simp)
    · intro m h
      rw [mem_readEventsOf] at h
      obtain ⟨m', -, -, hm⟩ := h
      rw [mem_readMessageEvents] at hm
      rcases hm with h' | ⟨id, -, h'⟩ <;> exact absurd h' (by simp)
    · intro id h
      rw [mem_readEventsOf] at h
      obtain ⟨m', -, -, hm⟩ := h
      rw [mem_readMessageEvents] at hm
      rcases hm with h' | ⟨id', -, h'⟩ <;> exact absurd h' (by simp)

/-- Witness for `c7_mark_read`: against `apiUnread` (one unread message with
id 11) from `stRun`, the mark-read facts hold of the produced trace. -/
theorem c7_mark_read_witness :
    (∀ m, Event.readReq m ∈ [Event.readReq mUnread, Event.markRead 11,
        Event.refreshReq "V"] ↔ m ∈ [mUnread] ∧ m.read_status ≠ "read") ∧
    (∀ m id, m ∈ [mUnread] → m.read_status ≠ "read" → m.messageId = some id →
      Event.markRead id ∈ [Event.readReq mUnread, Event.markRead 11,
        Event.refreshReq "V"]) ∧
    (∃ pre post, [Event.readReq mUnread, Event.markRead 11,
        Event.refreshReq "V"] = pre ++ post ∧
      (∀ m, Event.readReq m ∈ [Event.readReq mUnread, Event.markRead 11,
        Event.refreshReq "V"] → Event.readReq m ∈ pre) ∧
      (∀ id, Event.markRead id ∈ [Event.readReq mUnread, Event.markRead 11,
        Event.refreshReq "V"] → Event.markRead id ∈ pre) ∧
      (∀ m, Event.delReq m ∉ pre) ∧ (∀ id, Event.delCall id ∉ pre)) :=
  c7_mark_read apiUnread stRun ⟨10, some 11, false⟩ 3
    [Event.readReq mUnread, Event.markRead 11, Event.refreshReq "V"] [mUnread]
    (by decide) (by decide)

/-- C1 counterexample.  Three concrete runs of `check_for_new_messages`:
(1) against `apiA` the newest fetched message `mA` has `messageType = "999"`
— not a vehicle start message — yet a coordinator refresh is triggered,
refuting "a refresh is triggered only when the message that appeared is a
vehicle start message";
(2) against `apiB` from a first-call state the newest fetched message `mB`
*is* a new vehicle start message, yet no refresh is requested (the trace is
empty), refuting the "whenever" direction;
(3) against `apiCx` (no coordinator stored for the VIN) the newest fetched
message is a new vehicle start message, yet no refresh is requested. -/
theorem c1_counterexample :
    (checkForNewMessages apiA stRun 3
        = some (⟨10, some 5, false⟩, [Event.refreshReq "V"]) ∧
      mA.messageType ≠ "323") ∧
    (checkForNewMessages apiB ⟨0, none, true⟩ 3 = some (⟨10, some 7, false⟩, []) ∧
      mB.messageType = "323") ∧
    (checkForNewMessages apiCx stRun 3 = some (⟨10, some 9, false⟩, []) ∧
      mCx.messageType = "323") := by
  refine ⟨⟨by decide, by decide⟩, ⟨by decide, by decide⟩, by decide, by decide⟩

/-- C1 (amended).  In a run whose fetch succeeded with list `msgs`, a
coordinator refresh for VIN `v` is requested exactly when this is not the
first call, the newest fetched message — of *any* message type, not only
vehicle start — is new (its id differs from the stored last-seen id and its
time is strictly later than the stored last-seen timestamp), a coordinator is
stored under that message's VIN, and `v` is that VIN. -/
theorem c1_refresh_iff (api : Api) (st st' : HState) (fuel : Nat) (tr : List Event)
    (msgs : List Msg) (v : String)
    (hrun : checkForNewMessages api st fuel = some (st', tr))
    (hmsgs : getAllAlarmMessages api.pages st.last_message_ts fuel
      = some (some msgs)) :
    Event.refreshReq v ∈ tr ↔
      st.first_call = false ∧ ∃ lm, getLatestMessage msgs = some lm ∧
        lm.messageId ≠ st.last_message_id ∧
        st.last_message_ts < lm.message_time ∧
        api.hasCoordinator lm.vin = true ∧ v = lm.vin := by
  obtain ⟨h1, h2⟩ := run_destruct api st st' fuel tr msgs hrun hmsgs
  subst h1; subst h2
  constructor
  · intro h
    rcases List.mem_append.mp h with h | h
    · rcases List.mem_append.mp h with h | h
      · rw [mem_readEventsOf] at h
        obtain ⟨m', -, -, hm⟩ := h
        rw [mem_readMessageEvents] at hm
        rcases hm with h' | ⟨id, -, h'⟩ <;> exact absurd h' (by simp)
      · rw [mem_refreshEventsOf] at h
        obtain ⟨lm, hlm, hn, hfc, hc, h'⟩ := h
        injection h' with h''
        exact ⟨hfc, lm, hlm, hn.1, hn.2, hc, h''⟩
    · rw [mem_deleteEventsOf] at h
      obtain ⟨m', -, -, hm⟩ := h
      rw [mem_deleteMessageEvents] at hm
      rcases hm with h' | ⟨id, -, h'⟩ <;> exact absurd h' (by simp)
  · rintro ⟨hfc, lm, hlm, hid, hts, hc, rfl⟩
    refine List.mem_append.mpr (Or.inl (List.mem_append.mpr (Or.inr ?_)))
    rw [mem_refreshEventsOf]
    exact ⟨lm, hlm, ⟨hid, hts⟩, hfc, hc, rfl⟩

/-- Witness for `c1_refresh_iff`: the `apiA`/`stRun` run, where the refresh
for VIN `"V"` does appear in the trace. -/
theorem c1_refresh_iff_witness :
    Event.refreshReq "V" ∈ [Event.refreshReq "V"] ↔
      stRun.first_call = false ∧ ∃ lm, getLatestMessage [mA] = some lm ∧
        lm.messageId ≠ stRun.last_message_id ∧
        stRun.last_message_ts < lm.message_time ∧
        apiA.hasCoordinator lm.vin = true ∧ "V" = lm.vin :=
  c1_refresh_iff apiA stRun ⟨10, some 5, false⟩ 3 [Event.refreshReq "V"] [mA] "V"
    (by decide) (by decide)

/-- C9. On an invocation from a state with `first_call = True`: if the fetch
succeeded, `first_call` becomes `False`, no coordinator refresh is requested
even when a new latest message exists, and the watermark still advances to
that message; if the fetch failed, the whole state — including `first_call`,
which stays `True` — is unchanged. -/
theorem c9_first_call (api : Api) (st st' : HState) (fuel : Nat) (tr : List Event)
    (hfc : st.first_call = true)
    (hrun : checkForNewMessages api st fuel = some (st', tr)) :
    (∀ msgs, getAllAlarmMessages api.pages st.last_message_ts fuel
        = some (some msgs) →
      st'.first_call = false ∧ (∀ v, Event.refreshReq v ∉ tr) ∧
      ∀ lm, getLatestMessage msgs = some lm → lm.messageId ≠ st.last_message_id →
        st.last_message_ts < lm.message_time →
        st'.last_message_id = lm.messageId ∧
          st'.last_message_ts = lm.message_time) ∧
    (getAllAlarmMessages api.pages st.last_message_ts fuel = some none →
      st' = st ∧ tr = []) := by
  constructor
  · intro msgs hmsgs
    obtain ⟨h1, h2⟩ := run_destruct api st st' fuel tr msgs hrun hmsgs
    subst h1; subst h2
    refine ⟨rfl, ?_, ?_⟩
    · intro v h
      rcases List.mem_append.mp h with h | h
      · rcases List.mem_append.mp h with h | h
        · rw [mem_readEventsOf] at h
          obtain ⟨m', -, -, hm⟩ := h
          rw [mem_readMessageEvents] at hm
          rcases hm with h' | ⟨id, -, h'⟩ <;> exact absurd h' (by simp)
        · rw [mem_refreshEventsOf] at h
          obtain ⟨lm, -, -, hfc', -, -⟩ := h
          rw [hfc] at hfc'
          exact absurd hfc' (by simp)
      · rw [mem_deleteEventsOf] at h
        obtain ⟨m', -, -, hm⟩ := h
        rw [mem_deleteMessageEvents] at hm
        rcases hm with h' | ⟨id, -, h'⟩ <;> exact absurd h' (by simp)
    · intro lm hlm hid hts
      have hn : latestIsNew st lm := ⟨hid, hts⟩
      simp [hlm, updatedState, if_pos hn]
  · intro hnone
    unfold checkForNewMessages at hrun
    rw [hnone] at hrun
    simp only [Option.some.injEq, Prod.mk.injEq] at hrun
    exact ⟨hrun.1.symm, hrun.2.symm⟩

/-- Witness for `c9_first_call`: the very first invocation (from
`initialState`) against `apiB`, whose page 1 holds the new vehicle start
message `mB`. -/
theorem c9_first_call_witness :
    (∀ msgs, getAllAlarmMessages apiB.pages initialState.last_message_ts 3
        = some (some msgs) →
      (⟨10, some 7, false⟩ : HState).first_call = false ∧
      (∀ v, Event.refreshReq v ∉ ([] : List Event)) ∧
      ∀ lm, getLatestMessage msgs = some lm →
        lm.messageId ≠ initialState.last_message_id →
        initialState.last_message_ts < lm.message_time →
        (⟨10, some 7, false⟩ : HState).last_message_id = lm.messageId ∧
          (⟨10, some 7, false⟩ : HState).last_message_ts = lm.message_time) ∧
    (getAllAlarmMessages apiB.pages initialState.last_message_ts 3 = some none →
      (⟨10, some 7, false⟩ : HState) = initialState ∧ ([] : List Event) = []) :=
  c9_first_call apiB initialState ⟨10, some 7, false⟩ 3 [] (by decide) (by decide)

/-- C6 counterexample.  Against `apiC6` from watermark 5, the fetched list is
the non-empty `[mC6]`, and the selected message is `mC6` — a *previously seen*
message (its timestamp 0 is not newer than the watermark 5); indeed no message
of the fetched list is unseen.  So the selected message is not "one with
maximal timestamp among the messages not previously seen": that set is empty.
The selection on line 148 ranges over all fetched messages, seen or not. -/
theorem c6_counterexample :
    getAllAlarmMessages apiC6.pages 5 10 = some (some [mC6]) ∧
    ([mC6] : List Msg) ≠ [] ∧
    getLatestMessage [mC6] = some mC6 ∧
    ¬ (5 : Int) < mC6.message_time ∧
    (∀ u ∈ [mC6], ¬ (5 : Int) < u.message_time) := by
  refine ⟨by decide, by decide, by decide, by decide, by decide⟩

/-- C6 (amended).  `__get_latest_message` selects `None` exactly on an empty
list, and on a non-empty list selects a message with maximal timestamp among
*all* fetched messages; consequently, whenever some fetched message is unseen
(timestamp strictly above a watermark `ts`), the selected message is itself
unseen and of maximal timestamp, hence a maximal unseen message. -/
theorem c6_latest_amended (msgs : List Msg) :
    (getLatestMessage msgs = none ↔ msgs = []) ∧
    (msgs ≠ [] → ∃ sel, getLatestMessage msgs = some sel ∧ sel ∈ msgs ∧
      (∀ a ∈ msgs, a.message_time ≤ sel.message_time) ∧
      ∀ ts : Int, (∃ u ∈ msgs, ts < u.message_time) → ts < sel.message_time) := by
  refine ⟨getLatestMessage_eq_none msgs, ?_⟩
  intro h
  obtain ⟨sel, hsel, hmem, hmax⟩ := getLatestMessage_spec msgs h
  refine ⟨sel, hsel, hmem, hmax, ?_⟩
  rintro ts ⟨u, hu, hts⟩
  exact lt_of_lt_of_le hts (hmax u hu)

/-- Witness for `c6_latest_amended` at the singleton list `[mA]`. -/
theorem c6_latest_amended_witness :
    (getLatestMessage [mA] = none ↔ ([mA] : List Msg) = []) ∧
    (∃ sel, getLatestMessage [mA] = some sel ∧ sel ∈ [mA] ∧
      (∀ a ∈ [mA], a.message_time ≤ sel.message_time) ∧
      ∀ ts : Int, (∃ u ∈ [mA], ts < u.message_time) → ts < sel.message_time) :=
  ⟨(c6_latest_amended [mA]).1, (c6_latest_amended [mA]).2 (by decide)⟩

/-! ## Step lemmas for the pagination loop -/

theorem getAllAux_step_error (pages : Nat → Except Unit (List Msg)) (ts : Int)
    (fuel idx : Nat) (acc : List Msg) (hp : pages idx = .error ()) :
    getAllAlarmMessagesAux pages ts (fuel + 1) idx acc = some none := by
  simp [getAllAlarmMessagesAux, hp]

theorem getAllAux_step_nil (pages : Nat → Except Unit (List Msg)) (ts : Int)
    (fuel idx : Nat) (acc : List Msg) (hp : pages idx = .ok []) :
    getAllAlarmMessagesAux pages ts (fuel + 1) idx acc = some (some acc) := by
  simp [getAllAlarmMessagesAux, hp]

theorem getAllAux_step_stop (pages : Nat → Except Unit (List Msg)) (ts : Int)
    (fuel idx : Nat) (acc page : List Msg) (om : Msg)
    (hp : pages idx = .ok page) (hne : page ≠ [])
    (hom : getOldestMessage (acc ++ page) = some om)
    (hts : om.message_time < ts) :
    getAllAlarmMessagesAux pages ts (fuel + 1) idx acc
      = some (some (acc ++ page)) := by
  simp [getAllAlarmMessagesAux, hp, hne, hom, hts]

theorem getAllAux_step_cont (pages : Nat → Except Unit (List Msg)) (ts : Int)
    (fuel idx : Nat) (acc page : List Msg) (om : Msg)
    (hp : pages idx = .ok page) (hne : page ≠ [])
    (hom : getOldestMessage (acc ++ page) = some om)
    (hts : ¬ om.message_time < ts) :
    getAllAlarmMessagesAux pages ts (fuel + 1) idx acc
      = getAllAlarmMessagesAux pages ts fuel (idx + 1) (acc ++ page) := by
  simp [getAllAlarmMessagesAux, hp, hne, hom, hts]

theorem getAllAux_pagesC3_none :
    ∀ (fuel idx : Nat) (acc : List Msg), (∀ a ∈ acc, 0 ≤ a.message_time) →
      getAllAlarmMessagesAux pagesC3 0 fuel idx acc = none := by
  intro fuel
  induction fuel with
  | zero => intro idx acc _; rfl
  | succ f ih =>
    intro idx acc hacc
    obtain ⟨om, hom, hmem, -⟩ := getOldestMessage_spec (acc ++ [mC3]) (by simp)
    have h0 : (0 : Int) ≤ om.message_time := by
      rcases List.mem_append.mp hmem with h | h
      · exact hacc om h
      · simp only [List.mem_singleton] at h
        subst h
        decide
    rw [getAllAux_step_cont pagesC3 0 f idx acc [mC3] om rfl (by simp) hom
      (by omega)]
    refine ih (idx + 1) (acc ++ [mC3]) ?_
    intro a ha
    rcases List.mem_append.mp ha with h | h
    · exact hacc a h
    · simp only [List.mem_singleton] at h
      subst h
      decide

/-- C3 counterexample.  The loop of `get_all_alarm_messages` is *not* bounded
for every sequence of API responses: against `pagesC3` — an API that answers
every page request with the same non-empty page `[mC3]`, whose timestamp is
not older than the watermark 0 — the loop never returns, no matter how much
fuel it is given.  The source has no page-count bound: only an empty page, a
strictly-older accumulated message, or an exception stop it. -/
theorem c3_counterexample :
    ¬ ∃ (fuel : Nat) (r : Option (List Msg)),
        getAllAlarmMessages pagesC3 0 fuel = some r := by
  rintro ⟨fuel, r, h⟩
  unfold getAllAlarmMessages at h
  rw [getAllAux_pagesC3_none fuel 1 [] (by simp)] at h
  exact Option.noConfusion h

theorem getAllAux_terminates (k : Nat) :
    ∀ (pages : Nat → Except Unit (List Msg)) (ts : Int) (idx : Nat)
      (acc : List Msg),
      (pages (idx + k) = .error () ∨ pages (idx + k) = .ok []) →
      ∃ r, getAllAlarmMessagesAux pages ts (k + 1) idx acc = some r := by
  induction k with
  | zero =>
    intro pages ts idx acc h
    rcases h with h | h
    · exact ⟨none, getAllAux_step_error pages ts 0 idx acc (by simpa using h)⟩
    · exact ⟨some acc, getAllAux_step_nil pages ts 0 idx acc (by simpa using h)⟩
  | succ k ih =>
    intro pages ts idx acc h
    cases hp : pages idx with
    | error e =>
      cases e
      exact ⟨none, getAllAux_step_error pages ts (k + 1) idx acc hp⟩
    | ok page =>
      by_cases hne : page = []
      · subst hne
        exact ⟨some acc, getAllAux_step_nil pages ts (k + 1) idx acc hp⟩
      · obtain ⟨om, hom, -, -⟩ := getOldestMessage_spec (acc ++ page)
          (by simp [hne])
        by_cases hts : om.message_time < ts
        · exact ⟨some (acc ++ page),
            getAllAux_step_stop pages ts (k + 1) idx acc page om hp hne hom hts⟩
        · rw [getAllAux_step_cont pages ts (k + 1) idx acc page om hp hne hom hts]
          refine ih pages ts (idx + 1) (acc ++ page) ?_
          have hidx : idx + (k + 1) = idx + 1 + k := by omega
          rwa [hidx] at h

/-- C3 (amended).  The loop terminates for every API behavior that eventually
stops feeding it: if some page `N ≥ 1` comes back empty or raises, then fuel
`N` suffices for `get_all_alarm_messages` to return.  (By
`c3_counterexample`, this cannot be strengthened to every API behavior: an
API that forever returns non-empty pages of messages not older than the
watermark makes the loop run forever.) -/
theorem c3_termination_amended (pages : Nat → Except Unit (List Msg)) (ts : Int)
    (N : Nat) (hN : 1 ≤ N)
    (h : pages N = .error () ∨ pages N = .ok []) :
    ∃ r, getAllAlarmMessages pages ts N = some r := by
  obtain ⟨k, rfl⟩ : ∃ k, N = k + 1 := ⟨N - 1, by omega⟩
  unfold getAllAlarmMessages
  refine getAllAux_terminates k pages ts 1 [] ?_
  rwa [Nat.add_comm] at h

/-- Witness for `c3_termination_amended`: with no messages at all the loop
returns within one page fetch. -/
theorem c3_termination_amended_witness :
    ∃ r, getAllAlarmMessages pagesEmpty 0 1 = some r :=
  c3_termination_amended pagesEmpty 0 1 (by decide) (Or.inr rfl)

theorem getAllAux_on_list (L : List Msg) (ts : Int) (hs : sortedDesc L) :
    ∀ (suf pre : List Msg) (fuel : Nat), L = pre ++ suf → suf.length < fuel →
      (∀ x ∈ pre, ts ≤ x.message_time) →
      ∃ n, getAllAlarmMessagesAux (apiOfList L) ts fuel (pre.length + 1) pre
            = some (some (L.take n)) ∧ pre.length ≤ n ∧
          (∀ x ∈ L.drop n, x.message_time < ts) ∧
          (∀ k, k < n → ∀ x ∈ L.take k, ts ≤ x.message_time) := by
  intro suf
  induction suf with
  | nil =>
    intro pre fuel hL hfuel hpre
    obtain ⟨f, rfl⟩ : ∃ f, fuel = f + 1 := ⟨fuel - 1, by omega⟩
    have hLpre : L = pre := by rw [hL, List.append_nil]
    subst hLpre
    have hpage : apiOfList L (L.length + 1) = .ok [] := by
      unfold apiOfList
      simp [List.drop_length]
    rw [getAllAux_step_nil _ _ f _ _ hpage]
    refine ⟨L.length, ?_, le_refl _, ?_, ?_⟩
    · rw [List.take_length]
    · simp [List.drop_length]
    · intro k hk x hx
      exact hpre x (List.mem_of_mem_take hx)
  | cons m rest ih =>
    intro pre fuel hL hfuel hpre
    obtain ⟨f, rfl⟩ : ∃ f, fuel = f + 1 := ⟨fuel - 1, by omega⟩
    have hrest_len : rest.length < f := by
      simp only [List.length_cons] at hfuel
      omega
    have hdrop : L.drop pre.length = m :: rest := by
      rw [hL]
      exact List.drop_left pre (m :: rest)
    have hpage : apiOfList L (pre.length + 1) = .ok [m] := by
      unfold apiOfList
      simp [hdrop]
    have hsort : List.Pairwise (fun a b => b.message_time ≤ a.message_time)
        (pre ++ m :: rest) := by rw [← hL]; exact hs
    obtain ⟨-, hmr, hcross⟩ := List.pairwise_append.mp hsort
    have hm_rest : ∀ x ∈ rest, x.message_time ≤ m.message_time :=
      (List.pairwise_cons.mp hmr).1
    have hpre_m : ∀ a ∈ pre, m.message_time ≤ a.message_time := fun a ha =>
      hcross a ha m (List.mem_cons_self _ _)
    obtain ⟨om, hom, hommem, homle⟩ := getOldestMessage_spec (pre ++ [m]) (by simp)
    have hm_le_om : m.message_time ≤ om.message_time := by
      rcases List.mem_append.mp hommem with h | h
      · exact hpre_m om h
      · simp only [List.mem_singleton] at h
        subst h
        exact le_refl _
    have hom_le_m : om.message_time ≤ m.message_time :=
      homle m (List.mem_append.mpr (Or.inr (List.mem_singleton.mpr rfl)))
    have htake1 : L.take (pre.length + 1) = pre ++ [m] := by
      rw [hL, List.take_append 1]
      rfl
    have hdrop1 : L.drop (pre.length + 1) = rest := by
      rw [hL, List.drop_append 1]
      rfl
    by_cases hts : om.message_time < ts
    · rw [getAllAux_step_stop _ _ f _ _ [m] om hpage (by simp) hom hts]
      refine ⟨pre.length + 1, by rw [htake1], by omega, ?_, ?_⟩
      · intro x hx
        rw [hdrop1] at hx
        have hxm : x.message_time ≤ m.message_time := hm_rest x hx
        omega
      · intro k hk x hx
        have hkle : k ≤ pre.length := by omega
        rw [hL, List.take_append_of_le_length hkle] at hx
        exact hpre x (List.mem_of_mem_take hx)
    · have hts_m : ts ≤ m.message_time := le_trans (not_lt.mp hts) hom_le_m
      rw [getAllAux_step_cont _ _ f _ _ [m] om hpage (by simp) hom hts]
      have hpre' : ∀ x ∈ pre ++ [m], ts ≤ x.message_time := by
        intro x hx
        rcases List.mem_append.mp hx with h | h
        · exact hpre x h
        · simp only [List.mem_singleton] at h
          subst h
          exact hts_m
      have hL' : L = (pre ++ [m]) ++ rest := by
        rw [hL, List.append_assoc]
        rfl
      obtain ⟨n, heq, hlen, hdr, htk⟩ := ih (pre ++ [m]) f hL' hrest_len hpre'
      have hlen2 : (pre ++ [m]).length = pre.length + 1 := by simp
      rw [hlen2] at heq hlen
      exact ⟨n, heq, by omega, hdr, htk⟩

/-- C2 counterexample.  The loop does *not* stop as soon as the accumulated
messages include a previously-seen message (timestamp not newer than the
watermark): against `pagesC2` with watermark 5, page 1 already delivers
`m1C2`, whose timestamp 5 is not newer than the watermark — yet the loop goes
on to fetch page 2 and also returns the distinct message `m2C2`.  Line 104
compares with strict `<`: only a message strictly *older* than the watermark
stops it. -/
theorem c2_counterexample :
    getAllAlarmMessages pagesC2 5 10 = some (some [m1C2, m2C2]) ∧
    m1C2.message_time ≤ 5 ∧ m2C2 ≠ m1C2 := by
  refine ⟨by decide, by decide, by decide⟩

/-- C2 (amended).  Against an API serving a finite newest-first message list
`L` one message per page, `get_all_alarm_messages` (with fuel `L.length + 1`,
which suffices) paginates in increasing page-number order and returns a
prefix of `L`; it stops exactly when a *strictly older*-than-watermark
message has been accumulated or the pages run out: everything beyond the
returned prefix is strictly older than the watermark, every proper earlier
stage contained no strictly-older message, and every message newer than the
watermark is fetched. -/
theorem c2_pagination_amended (L : List Msg) (ts : Int) (hs : sortedDesc L) :
    ∃ n, getAllAlarmMessages (apiOfList L) ts (L.length + 1)
          = some (some (L.take n)) ∧
      (∀ x ∈ L.drop n, x.message_time < ts) ∧
      (∀ k, k < n → ∀ x ∈ L.take k, ts ≤ x.message_time) ∧
      (∀ m ∈ L, ts < m.message_time → m ∈ L.take n) := by
  obtain ⟨n, heq, -, hdr, htk⟩ := getAllAux_on_list L ts hs L [] (L.length + 1)
    (by simp) (by omega) (by intro x hx; exact absurd hx (List.not_mem_nil x))
  refine ⟨n, heq, hdr, htk, ?_⟩
  intro m hm hts
  rw [← List.take_append_drop n L] at hm
  rcases List.mem_append.mp hm with h | h
  · exact h
  · exact absurd (hdr m h) (by omega)

/-- Witness for `c2_pagination_amended` at the sorted two-message list `lC2W`
with watermark 5. -/
theorem c2_pagination_amended_witness :
    ∃ n, getAllAlarmMessages (apiOfList lC2W) 5 (lC2W.length + 1)
          = some (some (lC2W.take n)) ∧
      (∀ x ∈ lC2W.drop n, x.message_time < 5) ∧
      (∀ k, k < n → ∀ x ∈ lC2W.take k, (5 : Int) ≤ x.message_time) ∧
      (∀ m ∈ lC2W, (5 : Int) < m.message_time → m ∈ lC2W.take n) :=
  c2_pagination_amended lC2W 5 (by decide)

/-- C10. Across any number of successful `async_setup_entry` calls on the same
Home Assistant instance, a call that finds the `"message_handler"` slot
occupied creates nothing (`setupMessageHandler (some s) i = (some s, 0)`), and
in total at most one handler — hence one time-interval callback — is ever
created: after the first call the slot holds the first handler's cancel
callback and the creation count stays 1. -/
theorem c10_single_handler :
    (∀ s i, setupMessageHandler (some s) i = (some s, 0)) ∧
    ∀ n, (runSetups n).2 ≤ 1 ∧ (1 ≤ n → runSetups n = (some 1, 1)) := by
  refine ⟨fun s i => rfl, ?_⟩
  intro n
  induction n with
  | zero => exact ⟨by decide, fun h => absurd h (by decide)⟩
  | succ k ih =>
    rcases Nat.eq_zero_or_pos k with rfl | hk
    · exact ⟨by decide, fun _ => by decide⟩
    · have hrun : runSetups (k + 1) = (some 1, 1) := by
        simp [runSetups, ih.2 hk, setupMessageHandler]
      rw [hrun]
      exact ⟨by decide, fun _ => rfl⟩

/-- Witness for `c10_single_handler` after three successful setup calls: the
slot holds the first handler and exactly one handler was created. -/
theorem c10_single_handler_witness :
    (runSetups 3).2 ≤ 1 ∧ runSetups 3 = (some 1, 1) :=
  ⟨(c10_single_handler.2 3).1, (c10_single_handler.2 3).2 (by decide)⟩

end MgSaic
